import Mathlib

/-!
# Verification of the HPServer growable byte buffer

Shallow embedding of src/code/buffer/buffer.cpp. The backing
std::vector<char> is modelled as a List Nat of byte values; the size_t
cursors readPos_ and writePos_ are modelled as Nat (no realistic operation
approaches the 2^64 wraparound). File descriptors are external: the bytes a
readv call delivers are passed in as a list, a failing syscall is passed in
as an error code, mirroring exactly what the code does with the result.
-/

namespace HPBuffer

/-- Buffer state: the backing vector and the two cursors, as in buffer.h. -/
structure Buffer where
  buffer_ : List Nat
  readPos_ : Nat
  writePos_ : Nat
deriving Repr, DecidableEq

/-- Constructor Buffer(int initBuffSize): vector of that size
(zero-initialized), both cursors 0. -/
def Buffer.init (initBuffSize : Nat) : Buffer :=
  ⟨List.replicate initBuffSize 0, 0, 0⟩

/-- WritableBytes(): buffer_.size() - writePos_. -/
def WritableBytes (b : Buffer) : Nat := b.buffer_.length - b.writePos_

/-- ReadableBytes(): writePos_ - readPos_. -/
def ReadableBytes (b : Buffer) : Nat := b.writePos_ - b.readPos_

/-- PrependableBytes(): readPos_. -/
def PrependableBytes (b : Buffer) : Nat := b.readPos_

/-- Peek(): the pointer into buffer_ at readPos_, modelled as the suffix of
the backing store starting there. -/
def Peek (b : Buffer) : List Nat := b.buffer_.drop b.readPos_

/-- Reading ReadableBytes() bytes starting at Peek(): the readable region. -/
def readableData (b : Buffer) : List Nat := (Peek b).take (ReadableBytes b)

/-- Model of std::vector resize: truncate or extend with value-initialized
(zero) elements. -/
def vecResize (l : List Nat) (n : Nat) : List Nat :=
  if n ≤ l.length then l.take n else l ++ List.replicate (n - l.length) 0

/-- MakeSpace_(len): grow the vector to writePos_ + len + 1 when even the
prependable space would not suffice, otherwise compact the readable bytes
down to offset 0 via std::copy. -/
def MakeSpace_ (b : Buffer) (len : Nat) : Buffer :=
  if WritableBytes b + PrependableBytes b < len then
    { b with buffer_ := vecResize b.buffer_ (b.writePos_ + len + 1) }
  else
    let readable := ReadableBytes b
    { buffer_ := (b.buffer_.drop b.readPos_).take readable ++ b.buffer_.drop readable,
      readPos_ := 0,
      writePos_ := readable }

/-- EnsureWriteable(len): call MakeSpace_ only when len > WritableBytes(). -/
def EnsureWriteable (b : Buffer) (len : Nat) : Buffer :=
  if len > WritableBytes b then MakeSpace_ b len else b

/-- HasWritten(len): writePos_ += len. -/
def HasWritten (b : Buffer) (len : Nat) : Buffer :=
  { b with writePos_ := b.writePos_ + len }

/-- Retrieve(len): readPos_ += len, with no bounds check in the source. -/
def Retrieve (b : Buffer) (len : Nat) : Buffer :=
  { b with readPos_ := b.readPos_ + len }

/-- RetrieveUntil(end): Retrieve(end - Peek()); the pointer end is modelled
as an index e into buffer_ (the asserted precondition Peek() <= end becomes
readPos_ ≤ e). -/
def RetrieveUntil (b : Buffer) (e : Nat) : Buffer :=
  Retrieve b (e - b.readPos_)

/-- RetrieveAll(): memset the whole vector to 0 and reset both cursors. -/
def RetrieveAll (b : Buffer) : Buffer :=
  ⟨List.replicate b.buffer_.length 0, 0, 0⟩

/-- RetrieveAllToStr(): capture the readable bytes as a string, then
RetrieveAll(). Returns (string, new state). -/
def RetrieveAllToStr (b : Buffer) : List Nat × Buffer :=
  (readableData b, RetrieveAll b)

/-- Overwrite of the region [pos, pos + data.length) of l with data,
modelling std::copy into a raw pointer at offset pos. -/
def listWrite (l : List Nat) (pos : Nat) (data : List Nat) : List Nat :=
  l.take pos ++ data ++ l.drop (pos + data.length)

/-- Append(str, len): EnsureWriteable(len), std::copy into BeginWrite(),
HasWritten(len). The other three Append overloads all funnel here. -/
def Append (b : Buffer) (str : List Nat) : Buffer :=
  let b1 := EnsureWriteable b str.length
  HasWritten { b1 with buffer_ := listWrite b1.buffer_ b1.writePos_ str } str.length

/-- Append(const Buffer&): Append(buff.Peek(), buff.ReadableBytes()). -/
def AppendBuffer (b other : Buffer) : Buffer :=
  Append b (readableData other)

/-- Size of the on-stack scratch array in ReadFd: char buff[65535]. -/
def scratchSize : Nat := 65535

/-- Outcome of the readv syscall viewed from the buffer: either the byte
stream the descriptor has available (readv delivers as much of it as the two
iovecs can hold), or a failure with an errno value. -/
inductive ReadvResult where
  | ok (stream : List Nat)
  | err (errno : Nat)

/-- ReadFd(fd, Errno): scatter read into the writable region and the
65535-byte stack scratch array. Returns (return value, value stored through
Errno if any, new buffer state). On error nothing is mutated; if the count
fits the writable region only writePos_ advances; otherwise writePos_ jumps
to buffer_.size() and the scratch bytes go through Append. -/
def ReadFd (b : Buffer) (rv : ReadvResult) : Int × Option Nat × Buffer :=
  match rv with
  | .err e => (-1, some e, b)
  | .ok stream =>
      let writeable := WritableBytes b
      let n := min stream.length (writeable + scratchSize)
      let delivered := stream.take n
      let b1 : Buffer :=
        { b with buffer_ := listWrite b.buffer_ b.writePos_ (delivered.take writeable) }
      if n ≤ writeable then
        ((n : Int), none, { b1 with writePos_ := b1.writePos_ + n })
      else
        ((n : Int), none, Append { b1 with writePos_ := b1.buffer_.length } (delivered.drop writeable))

/-- Outcome of the write syscall: the count of bytes the descriptor
accepted, or a failure with an errno value. -/
inductive WriteSyscall where
  | ok (k : Nat)
  | err (errno : Nat)

/-- WriteFd(fd, Errno): write(fd, Peek(), ReadableBytes()); on error store
errno and return -1 unchanged, otherwise Retrieve the written count. -/
def WriteFd (b : Buffer) (rv : WriteSyscall) : Int × Option Nat × Buffer :=
  match rv with
  | .err e => (-1, some e, b)
  | .ok k => ((k : Int), none, Retrieve b k)

/-- Cursor invariant of the memory-layout comment in buffer.cpp:
0 ≤ readerIndex ≤ writerIndex ≤ size. -/
def Inv (b : Buffer) : Prop :=
  b.readPos_ ≤ b.writePos_ ∧ b.writePos_ ≤ b.buffer_.length

instance (b : Buffer) : Decidable (Inv b) := by
  unfold Inv; infer_instance

/-! ### List-level helper lemmas -/

/-- Writing an empty block changes nothing. -/
theorem listWrite_nil (l : List Nat) (pos : Nat) : listWrite l pos [] = l := by
  simp [listWrite]

/-- An in-bounds overwrite preserves the length of the backing store. -/
theorem listWrite_length (l data : List Nat) (pos : Nat)
    (h : pos + data.length ≤ l.length) :
    (listWrite l pos data).length = l.length := by
  simp [listWrite]
  omega

/-- Resize always yields the requested length. -/
theorem vecResize_length (l : List Nat) (n : Nat) : (vecResize l n).length = n := by
  unfold vecResize
  split
  · simp; omega
  · simp; omega

/-- A growing resize appends zero bytes after the existing ones. -/
theorem vecResize_of_le (l : List Nat) (n : Nat) (h : l.length ≤ n) :
    vecResize l n = l ++ List.replicate (n - l.length) 0 := by
  unfold vecResize
  split
  · have hn : n = l.length := by omega
    subst hn
    simp
  · rfl

/-- Reading back the region [rp, wp + s.length) after an in-bounds overwrite
of [wp, wp + s.length) yields the old bytes of [rp, wp) followed by s. -/
theorem drop_take_listWrite (l s : List Nat) (rp wp : Nat)
    (h1 : rp ≤ wp) (h2 : wp + s.length ≤ l.length) :
    ((listWrite l wp s).drop rp).take (wp + s.length - rp) =
      (l.drop rp).take (wp - rp) ++ s := by
  have htw : (l.take wp).length = wp := by simp; omega
  have hstep : (listWrite l wp s).drop rp =
      (l.take wp).drop rp ++ (s ++ l.drop (wp + s.length)) := by
    unfold listWrite
    rw [List.append_assoc, List.drop_append_eq_append_drop, htw]
    have : rp - wp = 0 := by omega
    rw [this, List.drop_zero]
  rw [hstep]
  have hlenA : ((l.take wp).drop rp).length = wp - rp := by simp; omega
  rw [List.take_append_eq_append_take, hlenA]
  have hA : ((l.take wp).drop rp).take (wp + s.length - rp) = (l.take wp).drop rp := by
    apply List.take_of_length_le
    omega
  rw [hA]
  have hrest : wp + s.length - rp - (wp - rp) = s.length := by omega
  rw [hrest, List.take_append_eq_append_take]
  have hs : s.take s.length = s := by simp
  rw [hs]
  have : s.length - s.length = 0 := by omega
  rw [this, List.take_zero, List.append_nil, List.drop_take]

/-! ### Specification lemmas for the internal operations -/

/-- Growth branch of MakeSpace_: the vector is extended in place with zero
bytes up to writePos_ + len + 1, cursors untouched. -/
theorem MakeSpace_grow (b : Buffer) (len : Nat)
    (h2 : b.writePos_ ≤ b.buffer_.length)
    (hg : WritableBytes b + PrependableBytes b < len) :
    MakeSpace_ b len =
      { b with buffer_ :=
          b.buffer_ ++ List.replicate (b.writePos_ + len + 1 - b.buffer_.length) 0 } := by
  unfold MakeSpace_
  rw [if_pos hg]
  unfold WritableBytes PrependableBytes at hg
  rw [vecResize_of_le b.buffer_ (b.writePos_ + len + 1) (by omega)]

/-- Compaction branch of MakeSpace_: the readable bytes move to offset 0,
the cursors are reset, the vector length is unchanged and the readable data
is preserved; all prependable space becomes writable. -/
theorem MakeSpace_compact (b : Buffer) (len : Nat)
    (h1 : b.readPos_ ≤ b.writePos_) (h2 : b.writePos_ ≤ b.buffer_.length)
    (hng : ¬ (WritableBytes b + PrependableBytes b < len)) :
    (MakeSpace_ b len).readPos_ = 0 ∧
    (MakeSpace_ b len).writePos_ = ReadableBytes b ∧
    (MakeSpace_ b len).buffer_.length = b.buffer_.length ∧
    readableData (MakeSpace_ b len) = readableData b ∧
    WritableBytes (MakeSpace_ b len) = WritableBytes b + PrependableBytes b := by
  have hRlen : ((b.buffer_.drop b.readPos_).take (b.writePos_ - b.readPos_)).length
      = b.writePos_ - b.readPos_ := by simp; omega
  unfold MakeSpace_
  rw [if_neg hng]
  refine ⟨rfl, rfl, ?_, ?_, ?_⟩
  · show (_ ++ _ : List Nat).length = _
    simp only [List.length_append, List.length_drop]
    unfold ReadableBytes
    rw [hRlen]
    omega
  · unfold readableData Peek ReadableBytes
    show ((((b.buffer_.drop b.readPos_).take (b.writePos_ - b.readPos_)) ++
        b.buffer_.drop (b.writePos_ - b.readPos_)).drop 0).take (b.writePos_ - b.readPos_ - 0)
        = (b.buffer_.drop b.readPos_).take (b.writePos_ - b.readPos_)
    rw [List.drop_zero, Nat.sub_zero, List.take_append_eq_append_take, hRlen,
      Nat.sub_self, List.take_zero, List.append_nil]
    exact List.take_of_length_le (le_of_eq hRlen)
  · unfold WritableBytes PrependableBytes ReadableBytes
    show ((_ ++ _ : List Nat).length) - (b.writePos_ - b.readPos_) = _
    simp only [List.length_append, List.length_drop]
    rw [hRlen]
    omega

/-- Combined specification of EnsureWriteable under the cursor invariant:
it preserves the invariant, guarantees the requested writable space (the
assert at the end of the source function), and leaves the readable region
untouched. -/
theorem EnsureWriteable_spec (b : Buffer) (len : Nat) (h : Inv b) :
    Inv (EnsureWriteable b len) ∧
    len ≤ WritableBytes (EnsureWriteable b len) ∧
    ReadableBytes (EnsureWriteable b len) = ReadableBytes b ∧
    readableData (EnsureWriteable b len) = readableData b := by
  obtain ⟨h1, h2⟩ := h
  unfold EnsureWriteable
  by_cases hc : len > WritableBytes b
  · rw [if_pos hc]
    by_cases hg : WritableBytes b + PrependableBytes b < len
    · -- growth branch: resize to writePos_ + len + 1
      rw [MakeSpace_grow b len h2 hg]
      unfold WritableBytes at hc
      unfold WritableBytes PrependableBytes at hg
      simp only [Inv, WritableBytes, ReadableBytes, readableData, Peek,
        List.length_append, List.length_replicate]
      refine ⟨⟨h1, by omega⟩, by omega, trivial, ?_⟩
      rw [List.drop_append_eq_append_drop]
      have h0 : b.readPos_ - b.buffer_.length = 0 := by omega
      rw [h0, List.drop_zero, List.take_append_eq_append_take]
      have h3 : b.writePos_ - b.readPos_ - (b.buffer_.drop b.readPos_).length = 0 := by
        simp only [List.length_drop]; omega
      rw [h3, List.take_zero, List.append_nil]
    · -- compaction branch: copy readable bytes to offset 0
      obtain ⟨hr, hw, hl, hd, hW⟩ := MakeSpace_compact b len h1 h2 hg
      refine ⟨⟨?_, ?_⟩, ?_, ?_, hd⟩
      · rw [hr]; omega
      · rw [hw, hl]
        unfold ReadableBytes
        omega
      · rw [hW]
        unfold WritableBytes PrependableBytes at hg ⊢
        omega
      · unfold ReadableBytes
        rw [hr, hw]
        unfold ReadableBytes
        omega
  · rw [if_neg hc]
    exact ⟨⟨h1, h2⟩, by omega, rfl, rfl⟩

/-- Combined specification of Append under the cursor invariant: it
preserves the invariant and extends the readable region by exactly the
appended bytes. -/
theorem Append_spec (b : Buffer) (s : List Nat) (h : Inv b) :
    Inv (Append b s) ∧
    readableData (Append b s) = readableData b ++ s ∧
    ReadableBytes (Append b s) = ReadableBytes b + s.length := by
  obtain ⟨hInv1, hW, hRB, hRD⟩ := EnsureWriteable_spec b s.length h
  set b1 := EnsureWriteable b s.length with hb1
  obtain ⟨h1, h2⟩ := hInv1
  unfold WritableBytes at hW
  have hbound : b1.writePos_ + s.length ≤ b1.buffer_.length := by omega
  have hlen := listWrite_length b1.buffer_ s b1.writePos_ hbound
  unfold Append HasWritten
  rw [← hb1]
  constructor
  · exact ⟨by simp; omega, by simp [hlen]; omega⟩
  constructor
  · show ((listWrite b1.buffer_ b1.writePos_ s).drop b1.readPos_).take
        (b1.writePos_ + s.length - b1.readPos_) = readableData b ++ s
    rw [drop_take_listWrite b1.buffer_ s b1.readPos_ b1.writePos_ h1 hbound]
    rw [← hRD]
    rfl
  · show b1.writePos_ + s.length - b1.readPos_ = ReadableBytes b + s.length
    rw [← hRB]
    unfold ReadableBytes
    omega

/-- An overwrite at or after position wp leaves every byte strictly before
rp ≤ wp untouched. -/
theorem take_listWrite_of_le (l s : List Nat) (rp wp : Nat)
    (h1 : rp ≤ wp) (h2 : wp ≤ l.length) :
    (listWrite l wp s).take rp = l.take rp := by
  unfold listWrite
  rw [List.take_append_eq_append_take, List.take_append_eq_append_take]
  have hlen : (l.take wp).length = wp := by simp; omega
  have hlen2 : (l.take wp ++ s).length = wp + s.length := by simp; omega
  rw [hlen, hlen2]
  have e1 : rp - wp = 0 := by omega
  have e2 : rp - (wp + s.length) = 0 := by omega
  rw [e1, e2, List.take_zero, List.take_zero, List.append_nil, List.append_nil,
    List.take_take]
  have e3 : min rp wp = rp := by omega
  rw [e3]

/-- Branch equation for ReadFd when the delivered count fits the writable
region. -/
theorem ReadFd_ok_le (b : Buffer) (stream : List Nat)
    (h : min stream.length (WritableBytes b + scratchSize) ≤ WritableBytes b) :
    ReadFd b (.ok stream) =
      (((min stream.length (WritableBytes b + scratchSize) : Nat) : Int), none,
        { b with
          buffer_ := listWrite b.buffer_ b.writePos_
            ((stream.take (min stream.length (WritableBytes b + scratchSize))).take
              (WritableBytes b)),
          writePos_ := b.writePos_ + min stream.length (WritableBytes b + scratchSize) }) := by
  unfold ReadFd
  dsimp only
  rw [if_pos h]

/-- Branch equation for ReadFd when the delivered count overflows the
writable region: the writable bytes are filled, writePos_ jumps to the
vector size, and the scratch bytes go through Append. -/
theorem ReadFd_ok_gt (b : Buffer) (stream : List Nat)
    (h : ¬ min stream.length (WritableBytes b + scratchSize) ≤ WritableBytes b) :
    ReadFd b (.ok stream) =
      (((min stream.length (WritableBytes b + scratchSize) : Nat) : Int), none,
        Append
          { b with
            buffer_ := listWrite b.buffer_ b.writePos_
              ((stream.take (min stream.length (WritableBytes b + scratchSize))).take
                (WritableBytes b)),
            writePos_ := (listWrite b.buffer_ b.writePos_
              ((stream.take (min stream.length (WritableBytes b + scratchSize))).take
                (WritableBytes b))).length }
          ((stream.take (min stream.length (WritableBytes b + scratchSize))).drop
            (WritableBytes b))) := by
  unfold ReadFd
  dsimp only
  rw [if_neg h]

/-- Combined specification of a successful ReadFd under the cursor
invariant: the reported count is the minimum of the available bytes and the
combined capacity of the writable region plus the 65535-byte scratch array;
exactly those bytes are appended to the readable region in order; the
invariant is preserved; and when the count fits the writable region only
writePos_ moves (by the count) while the vector keeps its length. -/
theorem ReadFd_ok_spec (b : Buffer) (stream : List Nat) (h : Inv b) :
    (ReadFd b (.ok stream)).1 =
      (min stream.length (WritableBytes b + scratchSize) : Nat) ∧
    (ReadFd b (.ok stream)).2.1 = none ∧
    Inv (ReadFd b (.ok stream)).2.2 ∧
    readableData (ReadFd b (.ok stream)).2.2 =
      readableData b ++ stream.take (min stream.length (WritableBytes b + scratchSize)) ∧
    ReadableBytes (ReadFd b (.ok stream)).2.2 =
      ReadableBytes b + min stream.length (WritableBytes b + scratchSize) ∧
    (min stream.length (WritableBytes b + scratchSize) ≤ WritableBytes b →
      (ReadFd b (.ok stream)).2.2.readPos_ = b.readPos_ ∧
      (ReadFd b (.ok stream)).2.2.writePos_ =
        b.writePos_ + min stream.length (WritableBytes b + scratchSize) ∧
      (ReadFd b (.ok stream)).2.2.buffer_.length = b.buffer_.length ∧
      (ReadFd b (.ok stream)).2.2.buffer_.take b.readPos_ =
        b.buffer_.take b.readPos_) := by
  obtain ⟨h1, h2⟩ := h
  obtain ⟨n, hn⟩ : ∃ m, m = min stream.length (WritableBytes b + scratchSize) := ⟨_, rfl⟩
  rw [← hn]
  have hns : n ≤ stream.length := by rw [hn]; omega
  have hdlen : (stream.take n).length = n := by simp; omega
  by_cases hle : n ≤ WritableBytes b
  · have hle' : min stream.length (WritableBytes b + scratchSize) ≤ WritableBytes b := by
      rw [← hn]; exact hle
    rw [ReadFd_ok_le b stream hle']
    dsimp only
    rw [← hn]
    have htake : (stream.take n).take (WritableBytes b) = stream.take n :=
      List.take_of_length_le (by rw [hdlen]; exact hle)
    rw [htake]
    have hbound : b.writePos_ + (stream.take n).length ≤ b.buffer_.length := by
      rw [hdlen]
      unfold WritableBytes at hle
      omega
    have hlen := listWrite_length b.buffer_ (stream.take n) b.writePos_ hbound
    refine ⟨rfl, rfl, ⟨?_, ?_⟩, ?_, ?_, fun _ => ⟨rfl, rfl, ?_, ?_⟩⟩
    · show b.readPos_ ≤ b.writePos_ + n
      omega
    · show b.writePos_ + n ≤ (listWrite b.buffer_ b.writePos_ (stream.take n)).length
      rw [hlen]
      rw [hdlen] at hbound
      omega
    · show ((listWrite b.buffer_ b.writePos_ (stream.take n)).drop b.readPos_).take
        (b.writePos_ + n - b.readPos_) = readableData b ++ stream.take n
      have hthis := drop_take_listWrite b.buffer_ (stream.take n) b.readPos_ b.writePos_
        h1 hbound
      rw [hdlen] at hthis
      exact hthis
    · show b.writePos_ + n - b.readPos_ = b.writePos_ - b.readPos_ + n
      omega
    · show (listWrite b.buffer_ b.writePos_ (stream.take n)).length = b.buffer_.length
      exact hlen
    · show (listWrite b.buffer_ b.writePos_ (stream.take n)).take b.readPos_ =
        b.buffer_.take b.readPos_
      exact take_listWrite_of_le b.buffer_ (stream.take n) b.readPos_ b.writePos_ h1 h2
  · have hle' : ¬ min stream.length (WritableBytes b + scratchSize) ≤ WritableBytes b := by
      rw [← hn]; exact hle
    rw [ReadFd_ok_gt b stream hle']
    dsimp only
    rw [← hn]
    have hwle : WritableBytes b ≤ n := by omega
    have htklen : ((stream.take n).take (WritableBytes b)).length = WritableBytes b := by
      rw [List.length_take, hdlen]
      exact min_eq_left hwle
    have hfill : b.writePos_ + WritableBytes b = b.buffer_.length := by
      unfold WritableBytes
      omega
    have hbound : b.writePos_ + ((stream.take n).take (WritableBytes b)).length
        ≤ b.buffer_.length := by rw [htklen]; omega
    have hlen := listWrite_length b.buffer_ ((stream.take n).take (WritableBytes b))
      b.writePos_ hbound
    obtain ⟨lw, hlw⟩ : ∃ l, l = listWrite b.buffer_ b.writePos_
        ((stream.take n).take (WritableBytes b)) := ⟨_, rfl⟩
    rw [← hlw] at hlen ⊢
    have hInv2 : Inv { b with buffer_ := lw, writePos_ := lw.length } :=
      ⟨by show b.readPos_ ≤ lw.length; rw [hlen]; omega, le_refl _⟩
    obtain ⟨hA1, hA2, hA3⟩ := Append_spec { b with buffer_ := lw, writePos_ := lw.length }
      ((stream.take n).drop (WritableBytes b)) hInv2
    have hRD2 : readableData { b with buffer_ := lw, writePos_ := lw.length } =
        readableData b ++ (stream.take n).take (WritableBytes b) := by
      show (lw.drop b.readPos_).take (lw.length - b.readPos_) = _
      rw [hlen]
      have hthis := drop_take_listWrite b.buffer_ ((stream.take n).take (WritableBytes b))
        b.readPos_ b.writePos_ h1 hbound
      rw [htklen, hfill, ← hlw] at hthis
      exact hthis
    have hdrlen : ((stream.take n).drop (WritableBytes b)).length = n - WritableBytes b := by
      simp
      omega
    refine ⟨rfl, rfl, hA1, ?_, ?_, fun hcon => absurd hcon hle⟩
    · rw [hA2, hRD2, List.append_assoc, List.take_append_drop]
    · rw [hA3, hdrlen]
      have hRB2 : ReadableBytes { b with buffer_ := lw, writePos_ := lw.length } =
          lw.length - b.readPos_ := rfl
      rw [hRB2, hlen]
      unfold ReadableBytes WritableBytes at hle ⊢
      omega

/-! ### Claim theorems -/

/-- C1 counterexample: Retrieve performs no bounds check. On the concrete
state with 3 readable bytes, Retrieve(4) is not rejected and does not clamp
or wrap: it silently advances readPos_ to 6, strictly past writePos_ = 5,
leaving the vector and writePos_ untouched, contradicting the claim that a
bounds check fails such a call. -/
theorem retrieve_no_bounds_check_counterexample :
    ReadableBytes ⟨[10, 20, 30, 40, 50, 60, 70, 80], 2, 5⟩ = 3 ∧
    Retrieve ⟨[10, 20, 30, 40, 50, 60, 70, 80], 2, 5⟩ 4 =
      ⟨[10, 20, 30, 40, 50, 60, 70, 80], 6, 5⟩ ∧
    ¬ (Retrieve ⟨[10, 20, 30, 40, 50, 60, 70, 80], 2, 5⟩ 4).readPos_ ≤
      (Retrieve ⟨[10, 20, 30, 40, 50, 60, 70, 80], 2, 5⟩ 4).writePos_ := by
  decide

/-- C1 (amended): Retrieve(len) has no bounds check: for every state
satisfying the cursor invariant and every len exceeding ReadableBytes(),
the call unconditionally performs readPos_ += len (storage and writePos_
unchanged), silently advancing the read cursor strictly past the write
cursor instead of failing with an OutOfRange or PreconditionViolation
error; guarding the precondition is left entirely to the caller. -/
theorem retrieve_silently_advances (b : Buffer) (len : Nat) (h : Inv b)
    (hlen : ReadableBytes b < len) :
    Retrieve b len = { b with readPos_ := b.readPos_ + len } ∧
    (Retrieve b len).writePos_ < (Retrieve b len).readPos_ := by
  refine ⟨rfl, ?_⟩
  show b.writePos_ < b.readPos_ + len
  obtain ⟨h1, h2⟩ := h
  unfold ReadableBytes at hlen
  omega

/-- Witness for C1 (amended) at the concrete state ⟨[0,0,0,0], 1, 3⟩ with
len = 5. -/
theorem retrieve_silently_advances_witness :
    (Retrieve ⟨[0, 0, 0, 0], 1, 3⟩ 5).writePos_ <
      (Retrieve ⟨[0, 0, 0, 0], 1, 3⟩ 5).readPos_ :=
  (retrieve_silently_advances ⟨[0, 0, 0, 0], 1, 3⟩ 5 (by decide) (by decide)).2

/-- C3: for every state satisfying the cursor invariant and every len with
WritableBytes() < len, MakeSpace_(len) either grows the vector to exactly
writePos_ + len + 1 bytes with both cursors and all existing bytes left in
place (when even the prependable space would not suffice), or compacts in
place: readPos_ becomes 0, writePos_ becomes ReadableBytes(), and the
readable byte sequence is unchanged. -/
theorem makeSpace_grow_or_compact (b : Buffer) (len : Nat) (h : Inv b)
    (hlt : WritableBytes b < len) :
    (WritableBytes b + PrependableBytes b < len →
      (MakeSpace_ b len).buffer_.length = b.writePos_ + len + 1 ∧
      (MakeSpace_ b len).readPos_ = b.readPos_ ∧
      (MakeSpace_ b len).writePos_ = b.writePos_ ∧
      (MakeSpace_ b len).buffer_.take b.buffer_.length = b.buffer_) ∧
    (¬ (WritableBytes b + PrependableBytes b < len) →
      (MakeSpace_ b len).readPos_ = 0 ∧
      (MakeSpace_ b len).writePos_ = ReadableBytes b ∧
      (MakeSpace_ b len).buffer_.length = b.buffer_.length ∧
      readableData (MakeSpace_ b len) = readableData b) := by
  obtain ⟨h1, h2⟩ := h
  constructor
  · intro hg
    rw [MakeSpace_grow b len h2 hg]
    unfold WritableBytes at hlt
    refine ⟨?_, rfl, rfl, ?_⟩
    · show (b.buffer_ ++ List.replicate (b.writePos_ + len + 1 - b.buffer_.length) 0).length = _
      simp only [List.length_append, List.length_replicate]
      omega
    · show (b.buffer_ ++ List.replicate (b.writePos_ + len + 1 - b.buffer_.length) 0).take
        b.buffer_.length = b.buffer_
      rw [List.take_append_eq_append_take, List.take_length, Nat.sub_self, List.take_zero,
        List.append_nil]
  · intro hng
    obtain ⟨hr, hw, hl, hd, _⟩ := MakeSpace_compact b len h1 h2 hng
    exact ⟨hr, hw, hl, hd⟩

/-- Witness for C3: a compacting call (6-byte vector, readable bytes
[8, 7, 6] at offset 2) and a growing call (4-byte vector, growing to
3 + 5 + 1 bytes). -/
theorem makeSpace_grow_or_compact_witness :
    ((MakeSpace_ ⟨[9, 9, 8, 7, 6, 0], 2, 5⟩ 3).readPos_ = 0 ∧
     (MakeSpace_ ⟨[9, 9, 8, 7, 6, 0], 2, 5⟩ 3).writePos_ =
       ReadableBytes ⟨[9, 9, 8, 7, 6, 0], 2, 5⟩ ∧
     (MakeSpace_ ⟨[9, 9, 8, 7, 6, 0], 2, 5⟩ 3).buffer_.length =
       (⟨[9, 9, 8, 7, 6, 0], 2, 5⟩ : Buffer).buffer_.length ∧
     readableData (MakeSpace_ ⟨[9, 9, 8, 7, 6, 0], 2, 5⟩ 3) =
       readableData ⟨[9, 9, 8, 7, 6, 0], 2, 5⟩) ∧
    (MakeSpace_ ⟨[1, 2, 3, 4], 1, 3⟩ 5).buffer_.length = 3 + 5 + 1 :=
  ⟨(makeSpace_grow_or_compact ⟨[9, 9, 8, 7, 6, 0], 2, 5⟩ 3 (by decide) (by decide)).2
      (by decide),
   ((makeSpace_grow_or_compact ⟨[1, 2, 3, 4], 1, 3⟩ 5 (by decide) (by decide)).1
      (by decide)).1⟩

/-- C5: after EnsureWriteable(len), WritableBytes() ≥ len holds, the
readable length and the readable byte values are unchanged, and when
WritableBytes() ≥ len already held the call changes nothing. -/
theorem ensureWriteable_guarantee (b : Buffer) (len : Nat) (h : Inv b) :
    len ≤ WritableBytes (EnsureWriteable b len) ∧
    ReadableBytes (EnsureWriteable b len) = ReadableBytes b ∧
    readableData (EnsureWriteable b len) = readableData b ∧
    (len ≤ WritableBytes b → EnsureWriteable b len = b) := by
  obtain ⟨_, hW, hRB, hRD⟩ := EnsureWriteable_spec b len h
  refine ⟨hW, hRB, hRD, fun hle => ?_⟩
  unfold EnsureWriteable
  rw [if_neg (by omega)]

/-- Witness for C5 at the concrete state ⟨[1,2,3,4], 1, 3⟩ with len = 3
(which forces the growth path). -/
theorem ensureWriteable_guarantee_witness :
    3 ≤ WritableBytes (EnsureWriteable ⟨[1, 2, 3, 4], 1, 3⟩ 3) ∧
    ReadableBytes (EnsureWriteable ⟨[1, 2, 3, 4], 1, 3⟩ 3) =
      ReadableBytes ⟨[1, 2, 3, 4], 1, 3⟩ ∧
    readableData (EnsureWriteable ⟨[1, 2, 3, 4], 1, 3⟩ 3) =
      readableData ⟨[1, 2, 3, 4], 1, 3⟩ ∧
    (3 ≤ WritableBytes ⟨[1, 2, 3, 4], 1, 3⟩ →
      EnsureWriteable ⟨[1, 2, 3, 4], 1, 3⟩ 3 = ⟨[1, 2, 3, 4], 1, 3⟩) :=
  ensureWriteable_guarantee ⟨[1, 2, 3, 4], 1, 3⟩ 3 (by decide)

/-- C6: when the underlying syscall fails, both ReadFd and WriteFd store
the error code in the Errno out-parameter, return -1, and leave the cursors
and the vector exactly as they were. -/
theorem fd_error_leaves_buffer_unchanged (b : Buffer) (e : Nat) :
    ReadFd b (.err e) = (-1, some e, b) ∧ WriteFd b (.err e) = (-1, some e, b) :=
  ⟨rfl, rfl⟩

/-- C7: a successful WriteFd that writes k ≤ ReadableBytes() bytes returns
k, writes nothing through Errno, advances readPos_ by exactly k, changes
neither writePos_ nor the vector, leaves ReadableBytes() - k bytes
readable, and a second call draining that remainder empties the buffer. -/
theorem writeFd_partial_write (b : Buffer) (k : Nat) (h : Inv b)
    (_hk : k ≤ ReadableBytes b) :
    (WriteFd b (.ok k)).1 = (k : Int) ∧
    (WriteFd b (.ok k)).2.1 = none ∧
    (WriteFd b (.ok k)).2.2.readPos_ = b.readPos_ + k ∧
    (WriteFd b (.ok k)).2.2.writePos_ = b.writePos_ ∧
    (WriteFd b (.ok k)).2.2.buffer_ = b.buffer_ ∧
    ReadableBytes (WriteFd b (.ok k)).2.2 = ReadableBytes b - k ∧
    ReadableBytes (WriteFd (WriteFd b (.ok k)).2.2 (.ok (ReadableBytes b - k))).2.2 = 0 := by
  obtain ⟨h1, h2⟩ := h
  refine ⟨rfl, rfl, rfl, rfl, rfl, ?_, ?_⟩
  · show b.writePos_ - (b.readPos_ + k) = b.writePos_ - b.readPos_ - k
    omega
  · show b.writePos_ - (b.readPos_ + k + (b.writePos_ - b.readPos_ - k)) = 0
    omega

/-- Witness for C7 at the concrete state ⟨[1,2,3,4,5], 1, 4⟩ with a partial
write of k = 2 of the 3 readable bytes. -/
theorem writeFd_partial_write_witness :
    (WriteFd ⟨[1, 2, 3, 4, 5], 1, 4⟩ (.ok 2)).2.2.readPos_ = 1 + 2 ∧
    ReadableBytes (WriteFd (WriteFd ⟨[1, 2, 3, 4, 5], 1, 4⟩ (.ok 2)).2.2
      (.ok (ReadableBytes ⟨[1, 2, 3, 4, 5], 1, 4⟩ - 2))).2.2 = 0 :=
  ⟨(writeFd_partial_write ⟨[1, 2, 3, 4, 5], 1, 4⟩ 2 (by decide) (by decide)).2.2.1,
   (writeFd_partial_write ⟨[1, 2, 3, 4, 5], 1, 4⟩ 2 (by decide) (by decide)).2.2.2.2.2.2⟩

/-- C8: round-trip. Appending B to any state satisfying the cursor
invariant and then reading ReadableBytes() bytes from Peek() yields the
previously readable bytes followed by exactly the bytes of B, in order. -/
theorem append_roundtrip (b : Buffer) (B : List Nat) (h : Inv b) :
    readableData (Append b B) = readableData b ++ B :=
  (Append_spec b B h).2.1

/-- Witness for C8 at the concrete state ⟨[3,1,4,1], 1, 3⟩, once with a
3-byte payload and once with the empty payload. -/
theorem append_roundtrip_witness :
    readableData (Append ⟨[3, 1, 4, 1], 1, 3⟩ [5, 9, 2]) =
      readableData ⟨[3, 1, 4, 1], 1, 3⟩ ++ [5, 9, 2] ∧
    readableData (Append ⟨[3, 1, 4, 1], 1, 3⟩ []) =
      readableData ⟨[3, 1, 4, 1], 1, 3⟩ ++ [] :=
  ⟨append_roundtrip ⟨[3, 1, 4, 1], 1, 3⟩ [5, 9, 2] (by decide),
   append_roundtrip ⟨[3, 1, 4, 1], 1, 3⟩ [] (by decide)⟩

/-- C2: a successful ReadFd reporting n bytes (n is the available bytes
capped by the combined writable-plus-scratch capacity) appends exactly the
n delivered bytes after the old readable bytes, with no byte lost or
duplicated; when n fits the pre-read writable region the cursors change
only by writePos_ += n and the vector keeps its length. -/
theorem readFd_success_appends_all_bytes (b : Buffer) (stream : List Nat) (h : Inv b) :
    (ReadFd b (.ok stream)).1 =
      (min stream.length (WritableBytes b + scratchSize) : Nat) ∧
    (ReadFd b (.ok stream)).2.1 = none ∧
    readableData (ReadFd b (.ok stream)).2.2 =
      readableData b ++ stream.take (min stream.length (WritableBytes b + scratchSize)) ∧
    ReadableBytes (ReadFd b (.ok stream)).2.2 =
      ReadableBytes b + min stream.length (WritableBytes b + scratchSize) ∧
    (min stream.length (WritableBytes b + scratchSize) ≤ WritableBytes b →
      (ReadFd b (.ok stream)).2.2.readPos_ = b.readPos_ ∧
      (ReadFd b (.ok stream)).2.2.writePos_ =
        b.writePos_ + min stream.length (WritableBytes b + scratchSize) ∧
      (ReadFd b (.ok stream)).2.2.buffer_.length = b.buffer_.length ∧
      (ReadFd b (.ok stream)).2.2.buffer_.take b.readPos_ =
        b.buffer_.take b.readPos_) := by
  obtain ⟨ha, hb, _, hd, he, hf⟩ := ReadFd_ok_spec b stream h
  exact ⟨ha, hb, hd, he, hf⟩

/-- Witness for C2 at the concrete state ⟨[1,2,3,4], 1, 3⟩ (readable [2,3],
one writable byte) with a 3-byte stream, which exercises the overflow
Append path. -/
theorem readFd_success_appends_all_bytes_witness :
    readableData (ReadFd ⟨[1, 2, 3, 4], 1, 3⟩ (.ok [9, 8, 7])).2.2 =
      readableData ⟨[1, 2, 3, 4], 1, 3⟩ ++ [9, 8, 7] := by
  have h := (readFd_success_appends_all_bytes ⟨[1, 2, 3, 4], 1, 3⟩ [9, 8, 7] (by decide)).2.2.1
  rw [h]
  decide

/-- C4: the cursor invariant 0 ≤ readPos_ ≤ writePos_ ≤ buffer_.size()
holds after every operation of the public interface, assuming the stated
precondition of the operation (none for most; len ≤ WritableBytes for
HasWritten, len ≤ ReadableBytes for Retrieve, a position inside the
readable region for RetrieveUntil, and the write syscall contract
k ≤ ReadableBytes for WriteFd). The size queries and Peek return no state,
so there is nothing to preserve for them. -/
theorem invariant_preserved_by_all_operations :
    (∀ n : Nat, Inv (Buffer.init n)) ∧
    (∀ (b : Buffer) (len : Nat), Inv b → Inv (EnsureWriteable b len)) ∧
    (∀ (b : Buffer) (len : Nat), Inv b → len ≤ WritableBytes b →
      Inv (HasWritten b len)) ∧
    (∀ (b : Buffer) (len : Nat), Inv b → len ≤ ReadableBytes b →
      Inv (Retrieve b len)) ∧
    (∀ (b : Buffer) (e : Nat), Inv b → b.readPos_ ≤ e → e ≤ b.writePos_ →
      Inv (RetrieveUntil b e)) ∧
    (∀ b : Buffer, Inv (RetrieveAll b)) ∧
    (∀ b : Buffer, Inv (RetrieveAllToStr b).2) ∧
    (∀ (b : Buffer) (s : List Nat), Inv b → Inv (Append b s)) ∧
    (∀ b other : Buffer, Inv b → Inv (AppendBuffer b other)) ∧
    (∀ (b : Buffer) (rv : ReadvResult), Inv b → Inv (ReadFd b rv).2.2) ∧
    (∀ (b : Buffer) (e : Nat), Inv b → Inv (WriteFd b (.err e)).2.2) ∧
    (∀ (b : Buffer) (k : Nat), Inv b → k ≤ ReadableBytes b →
      Inv (WriteFd b (.ok k)).2.2) := by
  refine ⟨?_, ?_, ?_, ?_, ?_, ?_, ?_, ?_, ?_, ?_, ?_, ?_⟩
  · intro n
    exact ⟨Nat.le.refl, Nat.zero_le _⟩
  · intro b len h
    exact (EnsureWriteable_spec b len h).1
  · intro b len h hw
    obtain ⟨h1, h2⟩ := h
    unfold WritableBytes at hw
    exact ⟨by show b.readPos_ ≤ b.writePos_ + len; omega,
      by show b.writePos_ + len ≤ b.buffer_.length; omega⟩
  · intro b len h hr
    obtain ⟨h1, h2⟩ := h
    unfold ReadableBytes at hr
    exact ⟨by show b.readPos_ + len ≤ b.writePos_; omega, h2⟩
  · intro b e h he1 he2
    obtain ⟨h1, h2⟩ := h
    exact ⟨by show b.readPos_ + (e - b.readPos_) ≤ b.writePos_; omega, h2⟩
  · intro b
    exact ⟨Nat.le.refl, Nat.zero_le _⟩
  · intro b
    exact ⟨Nat.le.refl, Nat.zero_le _⟩
  · intro b s h
    exact (Append_spec b s h).1
  · intro b other h
    exact (Append_spec b (readableData other) h).1
  · intro b rv h
    cases rv with
    | err e => exact h
    | ok stream => exact (ReadFd_ok_spec b stream h).2.2.1
  · intro b e h
    exact h
  · intro b k h hr
    obtain ⟨h1, h2⟩ := h
    unfold ReadableBytes at hr
    exact ⟨by show b.readPos_ + k ≤ b.writePos_; omega, h2⟩

/-- Witness for C4: three representative operations with their
preconditions discharged at the concrete state ⟨[4,4,4,4,4], 1, 4⟩. -/
theorem invariant_preserved_witness :
    Inv (Retrieve ⟨[4, 4, 4, 4, 4], 1, 4⟩ 2) ∧
    Inv (Append ⟨[4, 4, 4, 4, 4], 1, 4⟩ [7, 7]) ∧
    Inv (ReadFd ⟨[4, 4, 4, 4, 4], 1, 4⟩ (.ok [6, 6, 6])).2.2 :=
  ⟨invariant_preserved_by_all_operations.2.2.2.1 ⟨[4, 4, 4, 4, 4], 1, 4⟩ 2
      (by decide) (by decide),
   invariant_preserved_by_all_operations.2.2.2.2.2.2.2.1 ⟨[4, 4, 4, 4, 4], 1, 4⟩ [7, 7]
      (by decide),
   invariant_preserved_by_all_operations.2.2.2.2.2.2.2.2.2.1 ⟨[4, 4, 4, 4, 4], 1, 4⟩
      (.ok [6, 6, 6]) (by decide)⟩

/-- C9 counterexample: the on-stack scratch array in ReadFd is declared as
char buff[65535], so its size is 65535 bytes, not the 64 KiB = 65536 bytes
the claim states. -/
theorem scratch_not_64KiB_counterexample : scratchSize ≠ 65536 := by
  decide

/-- C9 (amended): the on-stack scratch region used as the second scatter
destination in ReadFd is a fixed-size transient local of exactly 65535
bytes (one byte short of 64 KiB) and no field of the buffer; a single call
therefore never transfers more than WritableBytes() + 65535 bytes. -/
theorem scratch_is_65535_byte_local (b : Buffer) (stream : List Nat) :
    scratchSize = 65535 ∧
    (ReadFd b (.ok stream)).1 = (min stream.length (WritableBytes b + 65535) : Nat) := by
  refine ⟨rfl, ?_⟩
  unfold ReadFd scratchSize
  dsimp only
  split
  · rfl
  · rfl

/-- C10: a ReadFd call whose scatter read returns 0 bytes (end of stream)
returns 0, leaves the whole buffer state unchanged, and does not write
through the Errno out-parameter. -/
theorem readFd_eof_noop (b : Buffer) : ReadFd b (.ok []) = (0, none, b) := by
  unfold ReadFd
  dsimp only
  rw [if_pos (by simp)]
  simp [listWrite]

end HPBuffer
